import Mathlib

/-!
Verification of the sampling utilities in `inspiremusic/utils/common.py`.

The Python code operates on torch tensors of floats; we embed score vectors
as `List ℝ`, token ids as `ℕ`, and every stochastic draw is made explicit by
passing the uniform random value `r ∈ [0,1)` consumed by the draw.  A Python
call that raises an exception is embedded as `Option.none`.
-/

namespace InspireMusic

/-- Real softmax of a weight vector, `weighted_scores.softmax(dim=0)`:
entry `i` becomes `exp wᵢ / Σⱼ exp wⱼ`. -/
noncomputable def softmaxList (ws : List ℝ) : List ℝ :=
  ws.map (fun x => Real.exp x / (ws.map Real.exp).sum)

/-- Inverse-CDF walk used to model one categorical draw: returns the first
index whose cumulative weight exceeds the running value `x`. -/
noncomputable def pick : List ℝ → ℝ → ℕ
  | [], _ => 0
  | w :: rest, x => if x < w then 0 else pick rest (x - w) + 1

/-- Model of `tensor.multinomial(1, replacement=True)` driven by a uniform
draw `r ∈ [0,1)`: torch normalizes the nonnegative weight vector internally
and raises a `RuntimeError` (here `none`) when the vector is empty, has a
nonpositive total, or contains a negative weight. -/
noncomputable def multinomialOne (ws : List ℝ) (r : ℝ) : Option ℕ :=
  if ws ≠ [] ∧ 0 < ws.sum ∧ ∀ w ∈ ws, 0 ≤ w then some (pick ws (r * ws.sum))
  else none

/-- Descending order on `(index, probability)` pairs, comparing the
probability component. -/
def descPair (a b : ℕ × ℝ) : Prop := b.2 ≤ a.2

noncomputable instance : DecidableRel descPair :=
  fun a b => inferInstanceAs (Decidable (b.2 ≤ a.2))

/-- Descending order on plain reals, for `torch.sort(..., descending=True)`
applied to a value-only tensor. -/
def descReal (a b : ℝ) : Prop := b ≤ a

noncomputable instance : DecidableRel descReal :=
  fun a b => inferInstanceAs (Decidable (b ≤ a))

/-- Stable descending sort of `(index, probability)` pairs, modelling
`tensor.sort(descending=True, stable=True)` (insertion sort is stable). -/
noncomputable def sortPairsDesc (l : List (ℕ × ℝ)) : List (ℕ × ℝ) :=
  List.insertionSort descPair l

/-- The collection loop of `nucleus_sampling`: starting from accumulated
mass `cum` and `cnt` entries already collected, keep taking entries while
`cum_prob < top_p and len(prob) < top_k`, and stop at the first entry where
the condition fails (the `else: break`). -/
noncomputable def selectLoop (p : ℝ) (k : ℕ) :
    List (ℕ × ℝ) → ℝ → ℕ → List (ℕ × ℝ)
  | [], _, _ => []
  | e :: rest, cum, cnt =>
    if cum < p ∧ cnt < k then e :: selectLoop p k rest (cum + e.2) (cnt + 1)
    else []

/-- The candidate set built by `nucleus_sampling`: softmax the full vector,
stable-sort by descending probability keeping original indices, then run the
collection loop from zero mass and zero count.  Pairs are
`(original index, softmax probability)`. -/
noncomputable def nucleus_candidates (ws : List ℝ) (p : ℝ) (k : ℕ) :
    List (ℕ × ℝ) :=
  selectLoop p k (sortPairsDesc (softmaxList ws).enum) 0 0

/-- `nucleus_sampling(weighted_scores, top_p, top_k)`: draw a position `j`
from the collected probabilities via multinomial, then return the token id
`indices[j]`. -/
noncomputable def nucleus_sampling (ws : List ℝ) (p : ℝ) (k : ℕ) (r : ℝ) :
    Option ℕ :=
  (multinomialOne ((nucleus_candidates ws p k).map Prod.snd) r).bind
    (fun j => ((nucleus_candidates ws p k).map Prod.fst).get? j)

/-- `random_sampling(weighted_scores, decoded_tokens)`: softmax the full
vector and draw once.  The `decoded_tokens` argument is accepted and unused,
exactly as in the source. -/
noncomputable def random_sampling (ws : List ℝ) (decoded_tokens : List ℕ)
    (r : ℝ) : Option ℕ :=
  multinomialOne (softmaxList ws) r

/-- Index set produced by `torch.topk(weighted_scores, top_k)`: the indices
of the `top_k` largest entries (descending by value, ties resolved by the
stable sort). -/
noncomputable def topkIndices (ws : List ℝ) (k : ℕ) : List ℕ :=
  ((sortPairsDesc ws.enum).take k).map Prod.fst

/-- Softmax of the scatter-masked vector built by `topk_sampling`: positions
outside `keep` hold `-inf`, so they contribute `exp (-inf) = 0` mass and the
kept positions share `exp wᵢ / Σ_{j ∈ keep} exp wⱼ`. -/
noncomputable def maskedSoftmax (ws : List ℝ) (keep : List ℕ) : List ℝ :=
  ws.enum.map (fun e =>
    if e.1 ∈ keep then
      Real.exp e.2 /
        ((ws.enum.filter (fun x => decide (x.1 ∈ keep))).map
          (fun x => Real.exp x.2)).sum
    else 0)

/-- `topk_sampling(weighted_scores, decoded_tokens, top_k)`: `torch.topk`
raises (`none`) when `top_k` exceeds the vector length; otherwise the top-k
values are scattered back onto a `-inf` vector and passed to
`random_sampling`. -/
noncomputable def topk_sampling (ws : List ℝ) (decoded_tokens : List ℕ)
    (k : ℕ) (r : ℝ) : Option ℕ :=
  if k ≤ ws.length then multinomialOne (maskedSoftmax ws (topkIndices ws k)) r
  else none

/-- Python slice `decoded_tokens[-win_size:]`: the last `win_size` entries,
except that `win_size = 0` yields the whole list (`l[-0:] = l`). -/
def lastSlice (l : List ℕ) (w : ℕ) : List ℕ :=
  if w = 0 then l else l.drop (l.length - w)

/-- `ras_sampling`: propose via nucleus sampling, count occurrences of the
proposed token among the last `win_size` decoded tokens, and on
`rep_num >= win_size * tau_r` fall back to a full-distribution draw from the
same (primary) vector. -/
noncomputable def ras_sampling (ws : List ℝ) (decoded : List ℕ) (p : ℝ)
    (k win_size : ℕ) (tau_r : ℝ) (r1 r2 : ℝ) : Option ℕ :=
  (nucleus_sampling ws p k r1).bind (fun top =>
    if (win_size : ℝ) * tau_r ≤ ((lastSlice decoded win_size).count top : ℝ)
    then random_sampling ws decoded r2
    else some top)

/-- `caras_sampling`: the caller supplies the pair
`(weighted_scores, cfg_weighted_scores)`; nucleus sampling runs on the
primary vector and the repetition fallback draws from the guidance vector
`cfg_weighted_scores`. -/
noncomputable def caras_sampling (ws cfg : List ℝ) (decoded : List ℕ)
    (p : ℝ) (k win_size : ℕ) (tau_r : ℝ) (r1 r2 : ℝ) : Option ℕ :=
  (nucleus_sampling ws p k r1).bind (fun top =>
    if (win_size : ℝ) * tau_r ≤ ((lastSlice decoded win_size).count top : ℝ)
    then random_sampling cfg decoded r2
    else some top)

/-- `random.choice(l)` driven by an index draw `r` (reduced mod the list
length). -/
def choiceList (l : List ℕ) (r : ℕ) : ℕ := l.getD (r % l.length) 0

/-- `keep_harmony(next_token, current_chord)` with the external lookup
`get_allowed_notes(current_chord)` abstracted as the list `allowed_notes`:
a single token is kept if allowed, otherwise replaced by a random allowed
note. -/
def keep_harmony (next_token : ℕ) (allowed_notes : List ℕ) (r : ℕ) : ℕ :=
  if next_token ∈ allowed_notes then next_token else choiceList allowed_notes r

/-- `keep_rhythm(next_token, current_time_signature)` with the external
lookup `get_allowed_durations` abstracted as `allowed_durations`. -/
def keep_rhythm (next_token : ℕ) (allowed_durations : List ℕ) (r : ℕ) : ℕ :=
  if next_token ∈ allowed_durations then next_token
  else choiceList allowed_durations r

/-- `relieve_repetition(weighted_scores, recent_tokens, repetition_penalty)`:
iterate over `recent_tokens` in order, and at each visited token id divide
the current entry by the penalty when it is positive.  A token id occurring
several times in `recent_tokens` is visited (and divided) once per
occurrence. -/
noncomputable def relieve_repetition (ws : List ℝ) (recent : List ℕ)
    (penalty : ℝ) : List ℝ :=
  match recent with
  | [] => ws
  | t :: rest =>
    relieve_repetition
      (if 0 < ws.getD t 0 then ws.set t (ws.getD t 0 / penalty) else ws)
      rest penalty

/-- First index at which the running cumulative sum (starting from `cum`)
reaches `p`: models `torch.where(cumulative >= top_p)[0][0]`, which raises
an `IndexError` (`none`) when no index qualifies. -/
noncomputable def firstGE (p : ℝ) : List ℝ → ℝ → Option ℕ
  | [], _ => none
  | x :: rest, cum =>
    if p ≤ cum + x then some 0 else (firstGE p rest (cum + x)).map Nat.succ

/-- `top_p_sampling_with_constraints`.  `1 / temperature` raises
`ZeroDivisionError` (`none`) at `temperature = 0`; otherwise the vector is
scaled by `** (1/temperature)` and renormalized, the repetition penalty
(default `1.2`) is applied when `recent_tokens` is nonempty, the values are
sorted descending and cut at the first index whose cumulative sum reaches
`top_p` (an `IndexError`, `none`, if never reached).  Supplying a chord or
time-signature context makes the code call `keep_harmony`/`keep_rhythm` on
the *tensor of selected weights* with the undefined `get_allowed_notes` /
`get_allowed_durations` and the unimported `random` module, which raises at
run time (`none`).  Otherwise the selected weights are renormalized and a
draw is taken from them, so the returned id is a position within the
truncated sorted list. -/
noncomputable def top_p_sampling_with_constraints (ws : List ℝ)
    (decoded : List ℕ) (top_p temperature : ℝ)
    (current_chord current_time_signature : Option ℕ)
    (recent_tokens : List ℕ) (r : ℝ) : Option ℕ :=
  if temperature = 0 then none
  else
    let w1 := ws.map (fun x => x ^ (1 / temperature))
    let w2 := w1.map (fun x => x / w1.sum)
    let w3 :=
      if recent_tokens = [] then w2
      else relieve_repetition w2 recent_tokens (6 / 5)
    let sorted := List.insertionSort descReal w3
    match firstGE top_p sorted 0 with
    | none => none
    | some c =>
      if current_chord.isSome ∨ current_time_signature.isSome then none
      else
        let selected := sorted.take (c + 1)
        random_sampling (selected.map (fun x => x / selected.sum)) decoded r

/-- The spec's concrete nucleus-sampling scenario: the already-normalized
score vector `[0.4, 0.3, 0.2, 0.1]`. -/
noncomputable def demoVec : List ℝ := [2 / 5, 3 / 10, 1 / 5, 1 / 10]

/-- Sum of the first `m` probabilities of a sorted `(index, probability)`
list. -/
noncomputable def sumVals (l : List (ℕ × ℝ)) (m : ℕ) : ℝ :=
  ((l.take m).map Prod.snd).sum

lemma length_softmaxList (ws : List ℝ) : (softmaxList ws).length = ws.length := by
  simp [softmaxList]

lemma sum_map_exp_pos (ws : List ℝ) (h : ws ≠ []) :
    0 < (ws.map Real.exp).sum := by
  apply List.sum_pos
  · intro x hx
    rcases List.mem_map.mp hx with ⟨y, _, rfl⟩
    exact Real.exp_pos y
  · simpa using h

lemma softmaxList_sum (ws : List ℝ) (h : ws ≠ []) : (softmaxList ws).sum = 1 := by
  have hpos := sum_map_exp_pos ws h
  have hne : (ws.map Real.exp).sum ≠ 0 := ne_of_gt hpos
  unfold softmaxList
  simp only [div_eq_mul_inv]
  rw [List.sum_map_mul_right]
  exact mul_inv_cancel₀ hne

lemma softmaxList_pos (ws : List ℝ) {x : ℝ} (hx : x ∈ softmaxList ws) : 0 < x := by
  rcases List.mem_map.mp hx with ⟨y, hy, rfl⟩
  have hne : ws ≠ [] := by rintro rfl; simp at hy
  exact div_pos (Real.exp_pos y) (sum_map_exp_pos ws hne)

lemma pick_lt : ∀ (ws : List ℝ) (x : ℝ), 0 ≤ x → x < ws.sum →
    pick ws x < ws.length := by
  intro ws
  induction ws with
  | nil => intro x hx hs; simp at hs; linarith
  | cons w rest ih =>
    intro x hx hs
    by_cases hxw : x < w
    · simp [pick, hxw]
    · have hwx : w ≤ x := le_of_not_lt hxw
      have h1 : 0 ≤ x - w := by linarith
      have h2 : x - w < rest.sum := by
        simp only [List.sum_cons] at hs; linarith
      simp only [pick, if_neg hxw]
      have := ih (x - w) h1 h2
      simpa [Nat.succ_lt_succ_iff] using this

lemma multinomialOne_some_lt {ws : List ℝ} {r : ℝ} {j : ℕ}
    (h : multinomialOne ws r = some j) (hr0 : 0 ≤ r) (hr1 : r < 1) :
    j < ws.length := by
  unfold multinomialOne at h
  split at h
  · rename_i hcond
    obtain ⟨hne, hsum, _⟩ := hcond
    have hj : j = pick ws (r * ws.sum) := by
      simpa using h.symm
    subst hj
    exact pick_lt ws (r * ws.sum) (mul_nonneg hr0 (le_of_lt hsum))
      (mul_lt_of_lt_one_left hsum hr1)
  · simp at h

lemma mem_enum_fst_lt {α : Type} {l : List α} {e : ℕ × α} (h : e ∈ l.enum) :
    e.1 < l.length := by
  rcases e with ⟨i, a⟩
  have := List.mem_enumFrom h
  simpa using this.2.1

lemma sortPairsDesc_perm (l : List (ℕ × ℝ)) : List.Perm (sortPairsDesc l) l :=
  List.perm_insertionSort descPair l

lemma length_sortPairsDesc (l : List (ℕ × ℝ)) :
    (sortPairsDesc l).length = l.length :=
  (sortPairsDesc_perm l).length_eq

lemma selectLoop_spec (p : ℝ) (k : ℕ) :
    ∀ (l : List (ℕ × ℝ)) (cum : ℝ) (cnt : ℕ),
    ∃ n, n ≤ l.length ∧ selectLoop p k l cum cnt = l.take n ∧
      (∀ m, m < n → cum + sumVals l m < p ∧ cnt + m < k) ∧
      (n < l.length → ¬(cum + sumVals l n < p ∧ cnt + n < k)) := by
  intro l
  induction l with
  | nil =>
    intro cum cnt
    exact ⟨0, by simp, by simp [selectLoop], by simp, by simp⟩
  | cons e rest ih =>
    intro cum cnt
    by_cases hc : cum < p ∧ cnt < k
    · obtain ⟨n, hn_le, hn_eq, hn_all, hn_stop⟩ := ih (cum + e.2) (cnt + 1)
      refine ⟨n + 1, by simpa using Nat.succ_le_succ hn_le, ?_, ?_, ?_⟩
      · simp only [selectLoop, if_pos hc, hn_eq, List.take_succ_cons]
      · intro m hm
        match m with
        | 0 => simpa [sumVals] using hc
        | Nat.succ m' =>
          have hm' : m' < n := Nat.lt_of_succ_lt_succ hm
          have := hn_all m' hm'
          constructor
          · have : cum + e.2 + sumVals rest m' < p := this.1
            simpa [sumVals, List.take_succ_cons, add_assoc] using this
          · omega
      · intro hlen
        have hlen' : n < rest.length := Nat.lt_of_succ_lt_succ hlen
        have := hn_stop hlen'
        intro hcontra
        apply this
        constructor
        · have : cum + sumVals (e :: rest) (n + 1) < p := hcontra.1
          simpa [sumVals, List.take_succ_cons, add_assoc] using this
        · omega
    · refine ⟨0, by simp, ?_, by simp, ?_⟩
      · simp only [selectLoop, if_neg hc]
        simp
      · intro _
        simpa [sumVals] using hc

lemma nucleus_candidates_spec (ws : List ℝ) (p : ℝ) (k : ℕ) :
    ∃ n, n ≤ k ∧ n ≤ ws.length ∧
      nucleus_candidates ws p k = (sortPairsDesc (softmaxList ws).enum).take n ∧
      (∀ m, m < n →
        sumVals (sortPairsDesc (softmaxList ws).enum) m < p ∧ m < k) ∧
      (n < ws.length →
        p ≤ sumVals (sortPairsDesc (softmaxList ws).enum) n ∨ n = k) := by
  obtain ⟨n, hn_le, hn_eq, hn_all, hn_stop⟩ :=
    selectLoop_spec p k (sortPairsDesc (softmaxList ws).enum) 0 0
  have hlen : (sortPairsDesc (softmaxList ws).enum).length = ws.length := by
    rw [length_sortPairsDesc, List.enum_length, length_softmaxList]
  refine ⟨n, ?_, ?_, ?_, ?_, ?_⟩
  · match n with
    | 0 => exact Nat.zero_le k
    | Nat.succ n' =>
      have := (hn_all n' (Nat.lt_succ_self n')).2
      omega
  · omega
  · simpa [nucleus_candidates] using hn_eq
  · intro m hm
    have := hn_all m hm
    constructor
    · have h1 := this.1; linarith
    · omega
  · intro hlt
    have := hn_stop (by omega)
    by_cases hs : p ≤ sumVals (sortPairsDesc (softmaxList ws).enum) n
    · exact Or.inl hs
    · right
      have hlt2 : (0 : ℝ) + sumVals (sortPairsDesc (softmaxList ws).enum) n < p := by
        push_neg at hs; linarith
      have hk : ¬ (0 + n < k) := by
        intro hk
        exact this ⟨hlt2, hk⟩
      have hnk : n ≤ k := by
        match n with
        | 0 => exact Nat.zero_le k
        | Nat.succ n' =>
          have := (hn_all n' (Nat.lt_succ_self n')).2
          omega
      omega

lemma mem_nucleus_candidates_fst_lt {ws : List ℝ} {p : ℝ} {k : ℕ}
    {e : ℕ × ℝ} (h : e ∈ nucleus_candidates ws p k) : e.1 < ws.length := by
  obtain ⟨n, _, _, heq, _, _⟩ := nucleus_candidates_spec ws p k
  rw [heq] at h
  have h2 : e ∈ sortPairsDesc (softmaxList ws).enum := List.take_subset n _ h
  have h3 : e ∈ (softmaxList ws).enum :=
    (sortPairsDesc_perm (softmaxList ws).enum).mem_iff.mp h2
  have := mem_enum_fst_lt h3
  rwa [length_softmaxList] at this

lemma nucleus_sampling_some_lt {ws : List ℝ} {p r : ℝ} {k : ℕ} {id : ℕ}
    (h : nucleus_sampling ws p k r = some id) : id < ws.length := by
  unfold nucleus_sampling at h
  rcases Option.bind_eq_some.mp h with ⟨j, _, hget⟩
  have hmem : id ∈ (nucleus_candidates ws p k).map Prod.fst :=
    List.get?_mem hget
  rcases List.mem_map.mp hmem with ⟨e, he, rfl⟩
  exact mem_nucleus_candidates_fst_lt he

lemma random_sampling_some_lt {ws : List ℝ} {d : List ℕ} {r : ℝ} {id : ℕ}
    (h : random_sampling ws d r = some id) (hr0 : 0 ≤ r) (hr1 : r < 1) :
    id < ws.length := by
  unfold random_sampling at h
  have := multinomialOne_some_lt h hr0 hr1
  rwa [length_softmaxList] at this

lemma length_maskedSoftmax (ws : List ℝ) (keep : List ℕ) :
    (maskedSoftmax ws keep).length = ws.length := by
  simp [maskedSoftmax, List.enum_length]

lemma topk_sampling_some_lt {ws : List ℝ} {d : List ℕ} {k : ℕ} {r : ℝ}
    {id : ℕ} (h : topk_sampling ws d k r = some id) (hr0 : 0 ≤ r)
    (hr1 : r < 1) : id < ws.length := by
  unfold topk_sampling at h
  split at h
  · have := multinomialOne_some_lt h hr0 hr1
    rwa [length_maskedSoftmax] at this
  · simp at h

lemma ras_sampling_some_lt {ws : List ℝ} {d : List ℕ} {p tau_r : ℝ}
    {k w : ℕ} {r1 r2 : ℝ} {id : ℕ}
    (h : ras_sampling ws d p k w tau_r r1 r2 = some id)
    (hr0 : 0 ≤ r2) (hr1 : r2 < 1) : id < ws.length := by
  unfold ras_sampling at h
  rcases Option.bind_eq_some.mp h with ⟨top, htop, hbr⟩
  split at hbr
  · exact random_sampling_some_lt hbr hr0 hr1
  · have : top = id := by simpa using hbr
    subst this
    exact nucleus_sampling_some_lt htop

lemma caras_sampling_some_lt {ws cfg : List ℝ} {d : List ℕ} {p tau_r : ℝ}
    {k w : ℕ} {r1 r2 : ℝ} {id : ℕ}
    (h : caras_sampling ws cfg d p k w tau_r r1 r2 = some id)
    (hlen : cfg.length = ws.length) (hr0 : 0 ≤ r2) (hr1 : r2 < 1) :
    id < ws.length := by
  unfold caras_sampling at h
  rcases Option.bind_eq_some.mp h with ⟨top, htop, hbr⟩
  split at hbr
  · have := random_sampling_some_lt hbr hr0 hr1
    rwa [hlen] at this
  · have : top = id := by simpa using hbr
    subst this
    exact nucleus_sampling_some_lt htop

lemma length_relieve_repetition :
    ∀ (recent : List ℕ) (ws : List ℝ) (penalty : ℝ),
    (relieve_repetition ws recent penalty).length = ws.length := by
  intro recent
  induction recent with
  | nil => intro ws penalty; simp [relieve_repetition]
  | cons t rest ih =>
    intro ws penalty
    simp only [relieve_repetition]
    rw [ih]
    split <;> simp

lemma firstGE_some_lt {p : ℝ} :
    ∀ {l : List ℝ} {cum : ℝ} {j : ℕ}, firstGE p l cum = some j →
    j < l.length := by
  intro l
  induction l with
  | nil => intro cum j h; simp [firstGE] at h
  | cons x rest ih =>
    intro cum j h
    simp only [firstGE] at h
    split at h
    · have : j = 0 := by simpa using h.symm
      subst this; simp
    · rcases Option.map_eq_some'.mp h with ⟨j', hj', rfl⟩
      have := ih hj'
      simpa [Nat.succ_lt_succ_iff] using this

lemma top_p_sampling_some_lt {ws : List ℝ} {d : List ℕ}
    {top_p temperature : ℝ} {ch ts : Option ℕ} {recent : List ℕ} {r : ℝ}
    {id : ℕ}
    (h : top_p_sampling_with_constraints ws d top_p temperature ch ts recent r
      = some id)
    (hr0 : 0 ≤ r) (hr1 : r < 1) : id < ws.length := by
  unfold top_p_sampling_with_constraints at h
  split at h
  · simp at h
  · dsimp only at h
    set w1 := ws.map (fun x => x ^ (1 / temperature)) with hw1
    set w2 := w1.map (fun x => x / w1.sum) with hw2
    set w3 := if recent = [] then w2 else relieve_repetition w2 recent (6 / 5)
      with hw3
    set sorted := List.insertionSort descReal w3 with hsorted
    have hlen3 : w3.length = ws.length := by
      rw [hw3]
      split
      · simp [hw2, hw1]
      · rw [length_relieve_repetition]; simp [hw2, hw1]
    have hlensorted : sorted.length = ws.length := by
      rw [hsorted, (List.perm_insertionSort descReal w3).length_eq, hlen3]
    rcases hfg : firstGE top_p sorted 0 with _ | c
    · rw [hfg] at h; simp at h
    · rw [hfg] at h
      dsimp only at h
      have hc := firstGE_some_lt hfg
      by_cases hcts : ch.isSome = true ∨ ts.isSome = true
      · rw [if_pos hcts] at h; simp at h
      · rw [if_neg hcts] at h
        have := random_sampling_some_lt h hr0 hr1
        simp only [List.length_map, List.length_take] at this
        omega

lemma topkIndices_full (ws : List ℝ) :
    ∀ i, i ∈ topkIndices ws ws.length ↔ i < ws.length := by
  intro i
  have hlen : (sortPairsDesc ws.enum).length = ws.length := by
    rw [length_sortPairsDesc, List.enum_length]
  have htake : (sortPairsDesc ws.enum).take ws.length = sortPairsDesc ws.enum := by
    rw [← hlen, List.take_length]
  unfold topkIndices
  rw [htake]
  constructor
  · intro h
    rcases List.mem_map.mp h with ⟨e, he, rfl⟩
    exact mem_enum_fst_lt ((sortPairsDesc_perm ws.enum).mem_iff.mp he)
  · intro h
    have hperm := (sortPairsDesc_perm ws.enum).map Prod.fst
    rw [hperm.mem_iff, List.enum_map_fst]
    exact List.mem_range.mpr h

lemma maskedSoftmax_full (ws : List ℝ) (keep : List ℕ)
    (h : ∀ i, i < ws.length → i ∈ keep) :
    maskedSoftmax ws keep = softmaxList ws := by
  have hfil : ws.enum.filter (fun x => decide (x.1 ∈ keep)) = ws.enum := by
    rw [List.filter_eq_self]
    intro e he
    simpa using h e.1 (mem_enum_fst_lt he)
  have hsum : ((ws.enum.filter (fun x => decide (x.1 ∈ keep))).map
      (fun x => Real.exp x.2)).sum = (ws.map Real.exp).sum := by
    rw [hfil]
    congr 1
    have : (fun x : ℕ × ℝ => Real.exp x.2) = Real.exp ∘ Prod.snd := rfl
    rw [this, ← List.map_map, List.enum_map_snd]
  unfold maskedSoftmax softmaxList
  simp only [hsum]
  have hcong : ws.enum.map
      (fun e => if e.1 ∈ keep then Real.exp e.2 / (ws.map Real.exp).sum else 0)
      = ws.enum.map
        (fun e : ℕ × ℝ => Real.exp e.2 / (ws.map Real.exp).sum) := by
    apply List.map_congr_left
    intro e he
    rw [if_pos (h e.1 (mem_enum_fst_lt he))]
  rw [hcong,
    show (fun e : ℕ × ℝ => Real.exp e.2 / (ws.map Real.exp).sum)
      = ((fun x => Real.exp x / (ws.map Real.exp).sum) ∘ Prod.snd) from rfl,
    ← List.map_map, List.enum_map_snd]

/-- C8: for every ScoreVector of vocabulary size `n`, `topk_sampling` with
`top_k = n` is a no-op: the selected index set is the full vocabulary, and
the sampler coincides with `random_sampling` on the untruncated vector for
every random draw. -/
theorem C8_topk_full_is_noop (ws : List ℝ) (d : List ℕ) (r : ℝ) :
    (∀ i, i ∈ topkIndices ws ws.length ↔ i < ws.length) ∧
    topk_sampling ws d ws.length r = random_sampling ws d r := by
  refine ⟨topkIndices_full ws, ?_⟩
  unfold topk_sampling random_sampling
  rw [if_pos (le_refl ws.length),
    maskedSoftmax_full ws (topkIndices ws ws.length)
      (fun i hi => (topkIndices_full ws i).mpr hi)]

/-- C10: `random_sampling` depends only on the weight vector and the random
state; the `decoded_tokens` argument has no effect on the result. -/
theorem C10_random_sampling_ignores_history (ws : List ℝ) (d1 d2 : List ℕ)
    (r : ℝ) : random_sampling ws d1 r = random_sampling ws d2 r := rfl

/-- C5 (amended): `topk_sampling` with `top_k` greater than the vocabulary
size fails — `torch.topk` raises a `RuntimeError` instead of clamping `top_k`
to the vocabulary size. -/
theorem C5_topk_overlarge_raises (ws : List ℝ) (d : List ℕ) (k : ℕ) (r : ℝ)
    (h : ws.length < k) : topk_sampling ws d k r = none := by
  unfold topk_sampling
  rw [if_neg (by omega)]

/-- Witness for C5 (amended): a two-entry vector with `top_k = 3`. -/
theorem C5_topk_overlarge_raises_witness :
    topk_sampling [(0 : ℝ), 0] [] 3 0 = none :=
  C5_topk_overlarge_raises [(0 : ℝ), 0] [] 3 0 (by norm_num)

/-- Counterexample to C5 as stated: with vocabulary size 1 and `top_k = 2`
the call does not return a token id — it fails (`none`), contradicting the
claimed clamping behavior. -/
theorem C5_topk_overlarge_cex : topk_sampling [(0 : ℝ)] [] 2 0 = none := by
  unfold topk_sampling
  rw [if_neg (by norm_num)]

lemma softmaxList_00 : softmaxList [(0 : ℝ), 0] = [1 / 2, 1 / 2] := by
  unfold softmaxList
  norm_num [Real.exp_zero]

lemma sortPairs_00 :
    sortPairsDesc [(0, (1 : ℝ) / 2), (1, 1 / 2)]
      = [(0, (1 : ℝ) / 2), (1, 1 / 2)] := by
  apply List.Sorted.insertionSort_eq
  simp [List.sorted_cons, descPair]

lemma nucleus_candidates_00 :
    nucleus_candidates [(0 : ℝ), 0] (8 / 10) 25
      = [(0, (1 : ℝ) / 2), (1, 1 / 2)] := by
  unfold nucleus_candidates
  rw [softmaxList_00,
    show ([(1 : ℝ) / 2, 1 / 2]).enum = [(0, (1 : ℝ) / 2), (1, 1 / 2)] from rfl,
    sortPairs_00]
  simp only [selectLoop]
  norm_num

lemma nucleus_eval_00 : nucleus_sampling [(0 : ℝ), 0] (8 / 10) 25 0 = some 0 := by
  unfold nucleus_sampling
  rw [nucleus_candidates_00]
  norm_num [multinomialOne, pick]
  simp

/-- C6: whenever any sampling entry point returns a token id, that id is a
valid index into the original ScoreVector (for `caras_sampling`, into either
vector of the equal-length pair); the random draws consumed are uniform
values in `[0, 1)`. -/
theorem C6_token_ids_in_range (ws cfg : List ℝ) (d recent : List ℕ)
    (p tau_r top_p temperature : ℝ) (k w : ℕ) (ch ts : Option ℕ)
    (r1 r2 : ℝ) (hr1 : 0 ≤ r1 ∧ r1 < 1) (hr2 : 0 ≤ r2 ∧ r2 < 1) :
    (∀ id, nucleus_sampling ws p k r1 = some id → id < ws.length) ∧
    (∀ id, topk_sampling ws d k r1 = some id → id < ws.length) ∧
    (∀ id, random_sampling ws d r1 = some id → id < ws.length) ∧
    (∀ id, ras_sampling ws d p k w tau_r r1 r2 = some id → id < ws.length) ∧
    (cfg.length = ws.length →
      ∀ id, caras_sampling ws cfg d p k w tau_r r1 r2 = some id →
        id < ws.length) ∧
    (∀ id, top_p_sampling_with_constraints ws d top_p temperature ch ts
      recent r1 = some id → id < ws.length) :=
  ⟨fun _ h => nucleus_sampling_some_lt h,
    fun _ h => topk_sampling_some_lt h hr1.1 hr1.2,
    fun _ h => random_sampling_some_lt h hr1.1 hr1.2,
    fun _ h => ras_sampling_some_lt h hr2.1 hr2.2,
    fun hlen _ h => caras_sampling_some_lt h hlen hr2.1 hr2.2,
    fun _ h => top_p_sampling_some_lt h hr1.1 hr1.2⟩

/-- Witness for C6 at a concrete input: the nucleus sampler on `[0, 0]` with
draw `0` returns token `0`, a valid index. -/
theorem C6_token_ids_in_range_witness :
    nucleus_sampling [(0 : ℝ), 0] (8 / 10) 25 0 = some 0 ∧ (0 : ℕ) < 2 :=
  ⟨nucleus_eval_00,
    (C6_token_ids_in_range [(0 : ℝ), 0] [] [] [] (8 / 10) 0 0 1 25 10
      none none 0 0 (by norm_num) (by norm_num)).1 0 nucleus_eval_00⟩

/-- C2: `ras_sampling` returns the nucleus-sampled candidate unless the
candidate's occurrence count among the last `win_size` history entries
reaches `win_size * tau_r`, in which case it redraws from the full primary
distribution; `caras_sampling` behaves identically except that the fallback
draw uses the guidance vector of the supplied pair. -/
theorem C2_repetition_guard (ws cfg : List ℝ) (d : List ℕ) (p tau_r : ℝ)
    (k w : ℕ) (r1 r2 : ℝ) (c : ℕ)
    (hn : nucleus_sampling ws p k r1 = some c) :
    (((lastSlice d w).count c : ℝ) < (w : ℝ) * tau_r →
      ras_sampling ws d p k w tau_r r1 r2 = some c ∧
      caras_sampling ws cfg d p k w tau_r r1 r2 = some c) ∧
    ((w : ℝ) * tau_r ≤ ((lastSlice d w).count c : ℝ) →
      ras_sampling ws d p k w tau_r r1 r2 = random_sampling ws d r2 ∧
      caras_sampling ws cfg d p k w tau_r r1 r2
        = random_sampling cfg d r2) := by
  constructor
  · intro h
    have hif : ¬ ((w : ℝ) * tau_r ≤ ((lastSlice d w).count c : ℝ)) :=
      not_le.mpr h
    constructor <;> simp [ras_sampling, caras_sampling, hn, hif]
  · intro h
    constructor <;> simp [ras_sampling, caras_sampling, hn, h]

/-- Witness for C2: on `[0, 0]` with empty history the count is `0`, below
the threshold `10 * 0.1 = 1`, so the candidate token `0` is returned. -/
theorem C2_repetition_guard_witness :
    (((lastSlice [] 10).count 0 : ℝ) < (10 : ℝ) * (1 / 10)) ∧
    ras_sampling [(0 : ℝ), 0] [] (8 / 10) 25 10 (1 / 10) 0 0 = some 0 := by
  have h : ((lastSlice [] 10).count 0 : ℝ) < (10 : ℝ) * (1 / 10) := by
    simp [lastSlice]
  exact ⟨h, ((C2_repetition_guard [(0 : ℝ), 0] [(0 : ℝ), 0] [] (8 / 10)
    (1 / 10) 25 10 0 0 0 nucleus_eval_00).1 h).1⟩

/-- C9: with `tau_r = 0` the repetition threshold `win_size * 0 = 0` is
always met, so `ras_sampling` and `caras_sampling` discard the nucleus
candidate on every call, whatever the history, and return the plain
full-distribution draw (from the primary vector, resp. the guidance
vector). -/
theorem C9_tau_zero_always_fallback (ws cfg : List ℝ) (d : List ℕ) (p : ℝ)
    (k w : ℕ) (r1 r2 : ℝ) (c : ℕ)
    (hn : nucleus_sampling ws p k r1 = some c) :
    ras_sampling ws d p k w 0 r1 r2 = random_sampling ws d r2 ∧
    caras_sampling ws cfg d p k w 0 r1 r2 = random_sampling cfg d r2 := by
  have h : (w : ℝ) * 0 ≤ ((lastSlice d w).count c : ℝ) := by simp
  constructor <;> simp [ras_sampling, caras_sampling, hn, h]

/-- Witness for C9: even with a history free of repetitions, `tau_r = 0`
forces the fallback draw. -/
theorem C9_tau_zero_always_fallback_witness :
    ras_sampling [(0 : ℝ), 0] [1, 0, 1] (8 / 10) 25 10 0 0 0
      = random_sampling [(0 : ℝ), 0] [1, 0, 1] 0 :=
  (C9_tau_zero_always_fallback [(0 : ℝ), 0] [(0 : ℝ), 0] [1, 0, 1] (8 / 10)
    25 10 0 0 0 nucleus_eval_00).1

lemma getD_set_self {l : List ℝ} {n : ℕ} {a : ℝ} (h : n < l.length) :
    (l.set n a).getD n 0 = a := by
  rw [List.getD_eq_getElem?_getD, List.getElem?_set_self]
  · simp
  · simpa using h

lemma getD_set_ne {l : List ℝ} {n i : ℕ} {a : ℝ} (h : i ≠ n) :
    (l.set n a).getD i 0 = l.getD i 0 := by
  rw [List.getD_eq_getElem?_getD, List.getElem?_set_ne (by omega),
    ← List.getD_eq_getElem?_getD]

lemma sum_set_le : ∀ {l : List ℝ} {t : ℕ} {a : ℝ}, t < l.length →
    a ≤ l.getD t 0 → (l.set t a).sum ≤ l.sum := by
  intro l
  induction l with
  | nil => intro t a ht; simp at ht
  | cons x rest ih =>
    intro t a ht ha
    match t with
    | 0 =>
      simp only [List.set, List.sum_cons]
      simp only [List.getD_cons_zero] at ha
      linarith
    | Nat.succ t' =>
      simp only [List.set, List.sum_cons]
      have ht' : t' < rest.length := by simpa [Nat.succ_lt_succ_iff] using ht
      have ha' : a ≤ rest.getD t' 0 := by
        simpa [List.getD_cons_succ] using ha
      have := ih ht' ha'
      linarith

lemma relieve_repetition_sum_le (penalty : ℝ) (hp : 1 ≤ penalty) :
    ∀ (recent : List ℕ) (ws : List ℝ),
    (relieve_repetition ws recent penalty).sum ≤ ws.sum := by
  intro recent
  induction recent with
  | nil => intro ws; simp [relieve_repetition]
  | cons t rest ih =>
    intro ws
    simp only [relieve_repetition]
    by_cases h : 0 < ws.getD t 0
    · rw [if_pos h]
      refine le_trans (ih _) ?_
      by_cases ht : t < ws.length
      · exact sum_set_le ht (div_le_self (le_of_lt h) hp)
      · rw [List.set_eq_of_length_le (by omega)]
    · rw [if_neg h]
      exact ih ws

lemma relieve_repetition_getD (penalty : ℝ) (hp : 1 ≤ penalty) :
    ∀ (recent : List ℕ) (ws : List ℝ), (∀ t ∈ recent, t < ws.length) →
    ∀ i, i < ws.length →
      (0 < ws.getD i 0 → (relieve_repetition ws recent penalty).getD i 0
        = ws.getD i 0 / penalty ^ (recent.count i)) ∧
      (ws.getD i 0 ≤ 0 → (relieve_repetition ws recent penalty).getD i 0
        = ws.getD i 0) := by
  intro recent
  induction recent with
  | nil => intro ws _ i _; simp [relieve_repetition]
  | cons t rest ih =>
    intro ws hv i hi
    have htlen : t < ws.length := hv t (by simp)
    have hpen : (0 : ℝ) < penalty := lt_of_lt_of_le one_pos hp
    simp only [relieve_repetition]
    by_cases hpos : 0 < ws.getD t 0
    · rw [if_pos hpos]
      have hlen2 : (ws.set t (ws.getD t 0 / penalty)).length = ws.length := by
        simp
      have hv2 : ∀ s ∈ rest, s < (ws.set t (ws.getD t 0 / penalty)).length :=
        fun s hs => hlen2 ▸ hv s (by simp [hs])
      have IH := ih (ws.set t (ws.getD t 0 / penalty)) hv2 i (by omega)
      by_cases hit : i = t
      · subst hit
        have hget2 : (ws.set i (ws.getD i 0 / penalty)).getD i 0
            = ws.getD i 0 / penalty := getD_set_self htlen
        constructor
        · intro hwi
          have h2 : 0 < (ws.set i (ws.getD i 0 / penalty)).getD i 0 := by
            rw [hget2]; positivity
          rw [IH.1 h2, hget2, List.count_cons_self, div_div, ← pow_succ']
        · intro hwi; linarith
      · have hget2 : (ws.set t (ws.getD t 0 / penalty)).getD i 0
            = ws.getD i 0 := getD_set_ne hit
        have hcount : (t :: rest).count i = rest.count i :=
          List.count_cons_of_ne hit rest
        constructor
        · intro hwi
          rw [IH.1 (by rw [hget2]; exact hwi), hget2, hcount]
        · intro hwi
          rw [IH.2 (by rw [hget2]; exact hwi), hget2]
    · rw [if_neg hpos]
      have IH := ih ws (fun s hs => hv s (by simp [hs])) i hi
      constructor
      · intro hwi
        by_cases hit : i = t
        · subst hit; exact absurd hwi hpos
        · rw [IH.1 hwi, List.count_cons_of_ne hit rest]
      · intro hwi
        rw [IH.2 hwi]

/-- Counterexample to C7 as stated: with weight vector `[1]`, window
`[0, 0]` (token 0 listed twice) and penalty `2`, the code divides entry 0
once per occurrence, producing `1/4`, whereas dividing "exactly those
entries whose index is in the window" once would produce `1/2`. -/
theorem C7_relieve_repetition_cex :
    relieve_repetition [(1 : ℝ)] [0, 0] 2 = [(1 / 4 : ℝ)] ∧
    (1 / 4 : ℝ) ≠ (1 / 2 : ℝ) := by
  constructor
  · simp only [relieve_repetition]
    norm_num
  · norm_num

/-- C7 (amended): `relieve_repetition` divides an entry by
`penalty ^ (number of occurrences of its index in the window)` when the
entry is positive — one division per occurrence, so duplicated window
entries penalize repeatedly — leaves nonpositive entries and entries whose
index is not in the window unchanged, preserves the length, and performs no
renormalization, so the output sum is at most the input sum. -/
theorem C7_relieve_repetition_per_occurrence (ws : List ℝ) (recent : List ℕ)
    (penalty : ℝ) (hp : 1 ≤ penalty) (hv : ∀ t ∈ recent, t < ws.length) :
    (relieve_repetition ws recent penalty).length = ws.length ∧
    (∀ i, i < ws.length →
      (0 < ws.getD i 0 → (relieve_repetition ws recent penalty).getD i 0
        = ws.getD i 0 / penalty ^ (recent.count i)) ∧
      (ws.getD i 0 ≤ 0 → (relieve_repetition ws recent penalty).getD i 0
        = ws.getD i 0)) ∧
    (relieve_repetition ws recent penalty).sum ≤ ws.sum :=
  ⟨length_relieve_repetition recent ws penalty,
    fun i hi => relieve_repetition_getD penalty hp recent ws hv i hi,
    relieve_repetition_sum_le penalty hp recent ws⟩

/-- Witness for C7 (amended) at `ws = [1, -1, 2]`, window `[0, 1, 0]`,
penalty `2`: the sum can only shrink. -/
theorem C7_relieve_repetition_per_occurrence_witness :
    (relieve_repetition [(1 : ℝ), -1, 2] [0, 1, 0] 2).sum
      ≤ [(1 : ℝ), -1, 2].sum :=
  (C7_relieve_repetition_per_occurrence [(1 : ℝ), -1, 2] [0, 1, 0] 2
    (by norm_num) (by decide)).2.2

lemma choiceList_mem {l : List ℕ} (h : l ≠ []) (r : ℕ) : choiceList l r ∈ l := by
  unfold choiceList
  have hlen : 0 < l.length := List.length_pos.mpr h
  have hlt : r % l.length < l.length := Nat.mod_lt r hlen
  rw [List.getD_eq_getElem?_getD, List.getElem?_eq_getElem hlt]
  simpa using List.getElem_mem hlt

/-- C3 evidence: supplying a constraint context to
`top_p_sampling_with_constraints` makes the call fail (the code hands the
tensor of selected weights to `keep_harmony`/`keep_rhythm` as if it were a
single token and reaches the undefined `get_allowed_notes` /
`get_allowed_durations` and the unimported `random`), and the constraint
helpers themselves operate on one token — returning either the token itself
or one random member of the allowed set — so no intersection of the
candidate set with the allowed set is ever computed. -/
theorem C3_constraint_filter_never_intersects (ws : List ℝ) (d : List ℕ)
    (top_p temperature : ℝ) (ch ts : Option ℕ) (recent : List ℕ) (r : ℝ)
    (c t rc : ℕ) (allowed : List ℕ) (hne : allowed ≠ []) :
    top_p_sampling_with_constraints ws d top_p temperature (some c) ts recent
      r = none ∧
    top_p_sampling_with_constraints ws d top_p temperature ch (some c) recent
      r = none ∧
    keep_harmony t allowed rc ∈ allowed ∧
    keep_rhythm t allowed rc ∈ allowed := by
  refine ⟨?_, ?_, ?_, ?_⟩
  · unfold top_p_sampling_with_constraints
    split
    · rfl
    · dsimp only
      split
      · rfl
      · simp
  · unfold top_p_sampling_with_constraints
    split
    · rfl
    · dsimp only
      split
      · rfl
      · simp
  · unfold keep_harmony
    split
    · assumption
    · exact choiceList_mem hne rc
  · unfold keep_rhythm
    split
    · assumption
    · exact choiceList_mem hne rc

/-- Witness for C3's evidence theorem: a concrete disallowed token is
replaced by a member of the allowed set, and a concrete constrained call
fails. -/
theorem C3_constraint_filter_never_intersects_witness :
    top_p_sampling_with_constraints [(1 : ℝ)] [] (85 / 100) 1 (some 0) none
      [] 0 = none ∧
    keep_harmony 5 [1, 2] 0 ∈ [1, 2] := by
  have h := C3_constraint_filter_never_intersects [(1 : ℝ)] [] (85 / 100) 1
    none none [] 0 0 5 0 [1, 2] (by decide)
  exact ⟨h.1, h.2.2.1⟩

lemma random_sampling_draw_zero (ws : List ℝ) (d : List ℕ) (h : ws ≠ []) :
    random_sampling ws d 0 = some 0 := by
  unfold random_sampling multinomialOne
  rw [if_pos]
  · congr 1
    rw [zero_mul]
    rcases ws with _ | ⟨x, rest⟩
    · exact absurd rfl h
    · have hsum : 0 < (Real.exp x :: List.map Real.exp rest).sum := by
        have := sum_map_exp_pos (x :: rest) (by simp)
        simpa [List.map_cons] using this
      simp only [softmaxList, List.map_cons, pick]
      rw [if_pos (div_pos (Real.exp_pos x) hsum)]
  · refine ⟨?_, ?_, fun w hw => le_of_lt (softmaxList_pos ws hw)⟩
    · simpa [softmaxList, List.map_eq_nil] using h
    · rw [softmaxList_sum ws h]; norm_num

lemma top_p_eval_neg_temp :
    top_p_sampling_with_constraints [(1 : ℝ), 2] [] (85 / 100) (-1) none none
      [] 0 = some 0 := by
  have hexp : (1 : ℝ) / (-1 : ℝ) = -1 := by norm_num
  unfold top_p_sampling_with_constraints
  rw [if_neg (by norm_num : ¬ (-1 : ℝ) = 0)]
  dsimp only
  simp only [hexp, Real.rpow_neg_one, List.map_cons, List.map_nil,
    List.sum_cons, List.sum_nil]
  norm_num
  rw [if_pos (show descReal ((2 : ℝ) / 3) (1 / 3) from by norm_num [descReal])]
  have hfg : firstGE ((17 : ℝ) / 20) [(2 : ℝ) / 3, 1 / 3] 0 = some 1 := by
    simp only [firstGE]
    norm_num
  rw [hfg]
  norm_num
  exact random_sampling_draw_zero [(2 : ℝ) / 3, 1 / 3] [] (by simp)

/-- Counterexample to C4 as stated: at the negative temperature `-1` the
call raises nothing at all — it returns token `0` — so a temperature `≤ 0`
does not raise `InvalidParameterError` (no such validation exists in the
code). -/
theorem C4_negative_temperature_cex :
    top_p_sampling_with_constraints [(1 : ℝ), 2] [] (85 / 100) (-1) none none
      [] 0 = some 0 :=
  top_p_eval_neg_temp

/-- C4 (amended): the code performs no temperature validation.  Temperature
`0` raises `ZeroDivisionError` (from computing `1 / temperature`), not
`InvalidParameterError`, and a negative temperature raises nothing — the
transform silently computes `weighted_scores ** (1/temperature)` and
sampling proceeds. -/
theorem C4_no_temperature_validation :
    (∀ (ws : List ℝ) (d : List ℕ) (top_p : ℝ) (ch ts : Option ℕ)
      (recent : List ℕ) (r : ℝ),
      top_p_sampling_with_constraints ws d top_p 0 ch ts recent r = none) ∧
    top_p_sampling_with_constraints [(1 : ℝ), 2] [] (85 / 100) (-1) none none
      [] 0 = some 0 := by
  refine ⟨?_, top_p_eval_neg_temp⟩
  intro ws d top_p ch ts recent r
  unfold top_p_sampling_with_constraints
  rw [if_pos rfl]

lemma exp_le_inv_one_sub {x : ℝ} (hx : x < 1) : Real.exp x ≤ (1 - x)⁻¹ := by
  have h2 : 0 < 1 - x := by linarith
  have h1 : 1 - x ≤ Real.exp (-x) := by
    have := Real.add_one_le_exp (-x)
    linarith
  have h3 : Real.exp x * (1 - x) ≤ 1 := by
    calc Real.exp x * (1 - x) ≤ Real.exp x * Real.exp (-x) :=
          mul_le_mul_of_nonneg_left h1 (le_of_lt (Real.exp_pos x))
      _ = 1 := by rw [← Real.exp_add]; simp
  rw [inv_eq_one_div]
  exact (le_div_iff h2).mpr h3

lemma nucleus_candidates_demo :
    nucleus_candidates demoVec (4 / 5) 25 = (softmaxList demoVec).enum := by
  have hA : Real.exp (2 / 5) ≤ 5 / 3 := by
    have := exp_le_inv_one_sub (show (2 : ℝ) / 5 < 1 by norm_num)
    norm_num at this
    linarith
  have hB : Real.exp (3 / 10) ≤ 10 / 7 := by
    have := exp_le_inv_one_sub (show (3 : ℝ) / 10 < 1 by norm_num)
    norm_num at this
    linarith
  have hC : Real.exp (1 / 5) ≤ 5 / 4 := by
    have := exp_le_inv_one_sub (show (1 : ℝ) / 5 < 1 by norm_num)
    norm_num at this
    linarith
  have hD : Real.exp (1 / 10) ≤ 10 / 9 := by
    have := exp_le_inv_one_sub (show (1 : ℝ) / 10 < 1 by norm_num)
    norm_num at this
    linarith
  have h1B : (1 : ℝ) ≤ Real.exp (3 / 10) := Real.one_le_exp (by norm_num)
  have h1C : (1 : ℝ) ≤ Real.exp (1 / 5) := Real.one_le_exp (by norm_num)
  have h1D : (1 : ℝ) ≤ Real.exp (1 / 10) := Real.one_le_exp (by norm_num)
  have hDpos : (0 : ℝ) < Real.exp (1 / 10) := Real.exp_pos _
  have e1 : Real.exp (2 / 5) = Real.exp (3 / 10) * Real.exp (1 / 10) := by
    rw [← Real.exp_add]; norm_num
  have e2 : Real.exp (3 / 10) = Real.exp (1 / 5) * Real.exp (1 / 10) := by
    rw [← Real.exp_add]; norm_num
  have e3 : Real.exp (1 / 5) = Real.exp (1 / 10) * Real.exp (1 / 10) := by
    rw [← Real.exp_add]; norm_num
  have hsum4 : Real.exp (3 / 10) + Real.exp (1 / 5) + Real.exp (1 / 10)
      < 4 := by linarith
  have key3 : Real.exp (2 / 5) + Real.exp (3 / 10) + Real.exp (1 / 5)
      < 4 * Real.exp (1 / 10) := by
    have hmul := mul_lt_mul_of_pos_right hsum4 hDpos
    calc Real.exp (2 / 5) + Real.exp (3 / 10) + Real.exp (1 / 5)
        = (Real.exp (3 / 10) + Real.exp (1 / 5) + Real.exp (1 / 10))
          * Real.exp (1 / 10) := by rw [e1, e2, e3]; ring
      _ < 4 * Real.exp (1 / 10) := hmul
  set S : ℝ := (demoVec.map Real.exp).sum with hSdef
  have hSpos : 0 < S := sum_map_exp_pos demoVec (by simp [demoVec])
  have hSval : S = Real.exp (2 / 5)
      + (Real.exp (3 / 10) + (Real.exp (1 / 5) + Real.exp (1 / 10))) := by
    rw [hSdef]; simp [demoVec]
  have hsm : softmaxList demoVec = [Real.exp (2 / 5) / S,
      Real.exp (3 / 10) / S, Real.exp (1 / 5) / S, Real.exp (1 / 10) / S] := by
    unfold softmaxList
    rw [← hSdef]
    simp [demoVec]
  have hmono : ∀ x y : ℝ, x ≤ y → Real.exp x / S ≤ Real.exp y / S :=
    fun x y hxy =>
      (div_le_div_iff_of_pos_right hSpos).mpr (Real.exp_le_exp.mpr hxy)
  have hsrt : sortPairsDesc [(0, Real.exp (2 / 5) / S),
      (1, Real.exp (3 / 10) / S), (2, Real.exp (1 / 5) / S),
      (3, Real.exp (1 / 10) / S)]
      = [(0, Real.exp (2 / 5) / S), (1, Real.exp (3 / 10) / S),
        (2, Real.exp (1 / 5) / S), (3, Real.exp (1 / 10) / S)] := by
    apply List.Sorted.insertionSort_eq
    simp only [List.sorted_cons, List.mem_cons, descPair]
    refine ⟨?_, ?_, ?_⟩
    · rintro b (rfl | rfl | rfl | hb)
      · exact hmono (3 / 10) (2 / 5) (by norm_num)
      · exact hmono (1 / 5) (2 / 5) (by norm_num)
      · exact hmono (1 / 10) (2 / 5) (by norm_num)
      · simp at hb
    · rintro b (rfl | rfl | hb)
      · exact hmono (1 / 5) (3 / 10) (by norm_num)
      · exact hmono (1 / 10) (3 / 10) (by norm_num)
      · simp at hb
    · refine ⟨?_, by simp, by simp⟩
      rintro b (rfl | hb)
      · exact hmono (1 / 10) (1 / 5) (by norm_num)
      · simp at hb
  have ha1 : Real.exp (2 / 5) / S < 4 / 5 := by
    rw [div_lt_iff hSpos, hSval]; linarith
  have ha2 : Real.exp (2 / 5) / S + Real.exp (3 / 10) / S < 4 / 5 := by
    rw [div_add_div_same, div_lt_iff hSpos, hSval]; linarith
  have ha3 : Real.exp (2 / 5) / S + Real.exp (3 / 10) / S
      + Real.exp (1 / 5) / S < 4 / 5 := by
    rw [div_add_div_same, div_add_div_same, div_lt_iff hSpos, hSval]
    linarith
  rw [show nucleus_candidates demoVec (4 / 5) 25
      = selectLoop (4 / 5) 25 (sortPairsDesc (softmaxList demoVec).enum) 0 0
      from rfl, hsm]
  rw [show ([Real.exp (2 / 5) / S, Real.exp (3 / 10) / S,
      Real.exp (1 / 5) / S, Real.exp (1 / 10) / S]).enum
      = [(0, Real.exp (2 / 5) / S), (1, Real.exp (3 / 10) / S),
        (2, Real.exp (1 / 5) / S), (3, Real.exp (1 / 10) / S)] from rfl,
    hsrt]
  simp only [selectLoop, zero_add]
  norm_num [ha1, ha2, ha3]

/-- Counterexample to C1's concrete scenario: for the already-normalized
input `[0.4, 0.3, 0.2, 0.1]` with `top_p = 0.8` and `top_k = 25`, the code
softmaxes the vector (flattening it: the top-three softmax mass is
`≈ 0.786 < 0.8`), so the candidate set contains all four entries — not
exactly the three entries claimed. -/
theorem C1_nucleus_demo_cex :
    (nucleus_candidates demoVec (4 / 5) 25).length = 4 ∧
    (nucleus_candidates demoVec (4 / 5) 25).map Prod.fst = [0, 1, 2, 3] := by
  rw [nucleus_candidates_demo]
  constructor
  · rw [List.enum_length, length_softmaxList]
    simp [demoVec]
  · rw [List.enum_map_fst, length_softmaxList]
    simp [demoVec]
    decide

/-- C1 (amended): `nucleus_sampling` softmaxes the full vector, stable-sorts
by descending probability, and collects entries while the accumulated mass
is below `top_p` and fewer than `top_k` entries are collected, so the
candidate set is the descending-probability prefix up to and including the
entry that crosses `top_p` (or exactly `top_k` entries when `top_p` is not
reached within them).  Because the softmax is applied even to an
already-normalized input, the concrete vector `[0.4, 0.3, 0.2, 0.1]` with
`top_p = 0.8`, `top_k = 25` yields all four entries as candidates, not
three. -/
theorem C1_nucleus_prefix_and_demo :
    (∀ (ws : List ℝ) (p : ℝ) (k : ℕ), ∃ n, n ≤ k ∧ n ≤ ws.length ∧
      nucleus_candidates ws p k
        = (sortPairsDesc (softmaxList ws).enum).take n ∧
      (∀ m, m < n →
        sumVals (sortPairsDesc (softmaxList ws).enum) m < p ∧ m < k) ∧
      (n < ws.length →
        p ≤ sumVals (sortPairsDesc (softmaxList ws).enum) n ∨ n = k)) ∧
    (nucleus_candidates demoVec (4 / 5) 25).map Prod.fst = [0, 1, 2, 3] := by
  refine ⟨nucleus_candidates_spec, ?_⟩
  rw [nucleus_candidates_demo, List.enum_map_fst, length_softmaxList]
  simp [demoVec]
  decide

end InspireMusic
